import Mathlib

/-!
Verification of the resume-manager fragmentation / locale-resolution core
(`resume_manager.py`).

The document model is a JSON tree: scalars (string, number, boolean, null),
arrays, and objects (ordered key-value lists; keys are unique, as in Python
dicts).  File-system state is modelled explicitly: a directory is an
`Option (List (String × Json))` (`none` = the directory does not exist,
`some files` = its files as name/content pairs), and a profile is a record
of its `resume.json`, `basics.json` and per-section fragment directories.
Functions that can raise in Python are `Option`-valued (`none` = the call
raises); functions that print a diagnostic and return are modelled by
returning `none` (no state change) paired with the list of printed messages.
-/

inductive Json where
  | str   : String → Json
  | num   : Int → Json
  | jbool : Bool → Json
  | null  : Json
  | arr   : List Json → Json
  | obj   : List (String × Json) → Json

/-- Scalar test: `isinstance(v, (str, int, float, bool)) or v is None`. -/
def isScalar : Json → Bool
  | .arr _ => false
  | .obj _ => false
  | _      => true

/-- Python `dict.get` / `in` on an ordered key-value list (keys unique). -/
def lookupKey {α : Type} : List (String × α) → String → Option α
  | [],              _ => none
  | (k0, v) :: rest, k => if k0 = k then some v else lookupKey rest k

/-- Python `del d[k]` on an ordered key-value list (keys unique). -/
def removeKey (kvs : List (String × Json)) (k : String) : List (String × Json) :=
  kvs.filter (fun kv => kv.1 ≠ k)

/-- Python `d[k] = v`: replaces in place if the key exists, else appends. -/
def setKey (kvs : List (String × Json)) (k : String) (v : Json) :
    List (String × Json) :=
  match kvs with
  | []               => [(k, v)]
  | (k0, v0) :: rest =>
    if k0 = k then (k0, v) :: rest else (k0, v0) :: setKey rest k v

/-- Permissive translation-map predicate used by `_get_available_languages`:
every key a 2-character string and every value a scalar. -/
def permissive (kvs : List (String × Json)) : Bool :=
  kvs.all (fun kv => kv.1.length == 2) && kvs.all (fun kv => isScalar kv.2)

/-- Conservative translation-map predicate used by `_resolve_translations`:
additionally every key must belong to the available-language set. -/
def conservative (avail : List String) (kvs : List (String × Json)) : Bool :=
  kvs.all (fun kv => kv.1.length == 2 && avail.contains kv.1) &&
    kvs.all (fun kv => isScalar kv.2)

mutual
/-- The inner `extract_languages` walk of `_get_available_languages`:
collects the keys of every permissive mapping, recursing into the values of
non-permissive mappings and the elements of arrays. -/
def extract_languages : Json → List String
  | .obj kvs => if permissive kvs then kvs.map Prod.fst else extractPairs kvs
  | .arr xs  => extractItems xs
  | _        => []

def extractPairs : List (String × Json) → List String
  | []             => []
  | (_, v) :: rest => extract_languages v ++ extractPairs rest

def extractItems : List Json → List String
  | []        => []
  | x :: rest => extract_languages x ++ extractItems rest
end

/-- Function `_get_available_languages`: the collected locale codes, defaulting to
`{"en"}` when none were found.  (The Python function returns a set; we keep
the collection order and reason about it through membership only.) -/
def get_available_languages (resume : Json) : List String :=
  let languages := extract_languages resume
  if languages.isEmpty then ["en"] else languages

mutual
/-- Function `_resolve_translations`.  At a mapping satisfying the conservative
predicate: the target language's value, else the `"en"` value, else the
first key's value — and `none` (Python: `next(iter(obj))` raises) when the
mapping is empty.  Elsewhere the walk recurses, propagating failure. -/
def resolve_translations (j : Json) (language : String) (avail : List String) :
    Option Json :=
  match j with
  | .obj kvs =>
    if conservative avail kvs then
      match lookupKey kvs language with
      | some v => some v
      | none   =>
        match lookupKey kvs "en" with
        | some v => some v
        | none   =>
          match kvs with
          | (_, v) :: _ => some v
          | []          => none
    else (resolvePairs kvs language avail).map Json.obj
  | .arr xs => (resolveItems xs language avail).map Json.arr
  | s       => some s

def resolvePairs (kvs : List (String × Json)) (language : String)
    (avail : List String) : Option (List (String × Json)) :=
  match kvs with
  | [] => some []
  | (k, v) :: rest =>
    match resolve_translations v language avail, resolvePairs rest language avail with
    | some v2, some rest2 => some ((k, v2) :: rest2)
    | _, _                => none

def resolveItems (xs : List Json) (language : String) (avail : List String) :
    Option (List Json) :=
  match xs with
  | [] => some []
  | x :: rest =>
    match resolve_translations x language avail, resolveItems rest language avail with
    | some x2, some rest2 => some (x2 :: rest2)
    | _, _                => none
end

/-! ## Fragment store -/

def FRAGMENTABLE_SECTIONS : List String :=
  ["work", "education", "skills", "languages", "certificates", "awards",
   "volunteer", "publications", "projects", "interests", "references"]

/-- File name of the fragment written for array index `i`. -/
def fragName (i : Nat) : String := toString i ++ ".json"

/-- The files `split_section` writes for the items of an array section:
`0.json`, `1.json`, … each holding the corresponding element. -/
def split_section_files (items : List Json) : List (String × Json) :=
  ((List.range items.length).zip items).map (fun p => (fragName p.1, p.2))

/-- Function `split_section(profile, section)` given the parsed base document.
Result: `none` (diagnostic printed, nothing modified) or
`some (new base document, fragment files written)`; paired with the
printed messages. -/
def split_section (resume : List (String × Json)) (sec : String) :
    Option (List (String × Json) × List (String × Json)) × List String :=
  if FRAGMENTABLE_SECTIONS.contains sec then
    match lookupKey resume sec with
    | none => (none, ["No " ++ sec ++ " section found"])
    | some (Json.arr items) =>
      (some (removeKey resume sec, split_section_files items),
       ["Split " ++ toString items.length ++ " items from " ++ sec])
    | some _ => (none, [sec ++ " is not an array and cannot be fragmented"])
  else
    (none, ["Section " ++ sec ++ " is not fragmentable"])

/-- Python string `<` (code-point lexicographic, byte order on ASCII). -/
def charsLt : List Char → List Char → Bool
  | [],      []      => false
  | [],      _ :: _  => true
  | _ :: _,  []      => false
  | a :: as, b :: bs =>
    if a.toNat < b.toNat then true
    else if b.toNat < a.toNat then false
    else charsLt as bs

def strLt (a b : String) : Bool := charsLt a.data b.data

/-- Stable insertion of `x` into a sorted list: `x` goes before the first
element not strictly below it (matches Python's stable `sorted`). -/
def insertLt {α : Type} (lt : α → α → Bool) (x : α) : List α → List α
  | []      => [x]
  | y :: ys => if lt y x then y :: insertLt lt x ys else x :: y :: ys

def sortLt {α : Type} (lt : α → α → Bool) : List α → List α
  | []      => []
  | x :: xs => insertLt lt x (sortLt lt xs)

/-- Comparison used by `sorted(section_dir.glob("*.json"), key=lambda x: x.name)`. -/
def nameLt (f g : String × Json) : Bool := strLt f.1 g.1

/-- Membership test of `section_dir.glob("*.json")`: the name ends in `.json`. -/
def globJson (name : String) : Bool :=
  name.data.reverse.take 5 == [ 'n', 'o', 's', 'j', '.' ]

/-- Function `_merge_section`, over the section directory's state: `none` when the
directory does not exist or holds no `*.json` file; otherwise the file
contents in file-name lexicographic order. -/
def merge_section (dir : Option (List (String × Json))) : Option (List Json) :=
  match dir with
  | none => none
  | some files =>
    let items := (sortLt nameLt (files.filter (fun f => globJson f.1))).map Prod.snd
    if items.isEmpty then none else some items

/-- On-disk state of one profile directory. -/
structure Profile where
  resumeJson  : Option (List (String × Json))
  basicsJson  : Option (List (String × Json))
  sectionDirs : String → Option (List (String × Json))

/-- Function `_merge_all_sections`: base document (or empty), overlay `basics.json`
if present, then overwrite each fragmentable section whose merge is not
absent. -/
def merge_all_sections (p : Profile) : List (String × Json) :=
  let resume := p.resumeJson.getD []
  let resume :=
    match p.basicsJson with
    | some b => setKey resume "basics" (Json.obj b)
    | none   => resume
  FRAGMENTABLE_SECTIONS.foldl
    (fun r sec =>
      match merge_section (p.sectionDirs sec) with
      | some items => setKey r sec (Json.arr items)
      | none       => r)
    resume

/-- Function `build(profile)` for a named profile, up to the hand-off to the external
renderer: `none` plus a diagnostic when the profile directory does not
exist, otherwise the assembled document. -/
def build (profiles : List (String × Profile)) (p : String) :
    Option (List (String × Json)) × List String :=
  match lookupKey profiles p with
  | none      => (none, ["Profile " ++ p ++ " not found"])
  | some prof => (some (merge_all_sections prof), [])

/-! ## Output base-name derivation (`_build_single`) -/

/-- Python `str.upper()` (ASCII; the inputs at issue are ASCII). -/
def upperStr (s : String) : String := String.mk (s.data.map Char.toUpper)

def splitWsAux : List Char → List Char → List String
  | [], acc => if acc.isEmpty then [] else [String.mk acc.reverse]
  | c :: cs, acc =>
    if c.isWhitespace then
      (if acc.isEmpty then splitWsAux cs [] else String.mk acc.reverse :: splitWsAux cs [])
    else splitWsAux cs (c :: acc)

/-- Python `str.split()`: split on whitespace runs, dropping empty tokens. -/
def pySplit (s : String) : List String := splitWsAux s.data []

/-- Expression `resolved_resume.get("basics", {}).get("name", "Resume")`, `none` when
the Python expression raises (non-mapping `basics`, non-string name). -/
def nameFrom (resume : List (String × Json)) : Option String :=
  match lookupKey resume "basics" with
  | none => some "Resume"
  | some (Json.obj b) =>
    match lookupKey b "name" with
    | none                => some "Resume"
    | some (Json.str s)   => some s
    | some _              => none
  | some _ => none

/-- The LAST-FIRST base-name computation of `_build_single`. -/
def build_single_name (resume : List (String × Json)) : Option String :=
  (nameFrom resume).map fun name =>
    let name_parts := pySplit name
    let fl : String × String :=
      if name_parts.length ≥ 2 then
        (name_parts.getLastD "", name_parts.headD "")
      else if name_parts.length = 1 then
        ("", name_parts.headD "")
      else
        ("", "Resume")
    upperStr fl.1 ++ "-" ++ upperStr fl.2

/-- Relation `Subnode m d`: `m` occurs somewhere in the tree `d`. -/
inductive Subnode : Json → Json → Prop where
  | refl (d : Json) : Subnode d d
  | inObj {m v : Json} {k : String} {kvs : List (String × Json)} :
      (k, v) ∈ kvs → Subnode m v → Subnode m (.obj kvs)
  | inArr {m x : Json} {xs : List Json} :
      x ∈ xs → Subnode m x → Subnode m (.arr xs)

/-- The base name the spec prescribes for a given token list. -/
def expectedName : List String → String
  | []             => "-RESUME"
  | [t]            => "-" ++ upperStr t
  | t :: u :: rest => upperStr ((u :: rest).getLastD u) ++ "-" ++ upperStr t

/-- Key half of the conservative predicate: every key a 2-character member
of the locale set. -/
def keysShaped (avail : List String) (kvs : List (String × Json)) : Bool :=
  kvs.all (fun kv => kv.1.length == 2 && avail.contains kv.1)

mutual
/-- Does the tree contain a mapping satisfying the conservative predicate
(a remaining translation-map node)? -/
def hasTransMap (avail : List String) : Json → Bool
  | .obj kvs => conservative avail kvs || hasTransMapPairs avail kvs
  | .arr xs  => hasTransMapItems avail xs
  | _        => false

def hasTransMapPairs (avail : List String) : List (String × Json) → Bool
  | []             => false
  | (_, v) :: rest => hasTransMap avail v || hasTransMapPairs avail rest

def hasTransMapItems (avail : List String) : List Json → Bool
  | []        => false
  | x :: rest => hasTransMap avail x || hasTransMapItems avail rest
end

mutual
/-- Every mapping node whose keys all look like members of the locale set
has only scalar values (no "half translation map" anywhere). -/
def noHalfMap (avail : List String) : Json → Bool
  | .obj kvs =>
    (!keysShaped avail kvs || kvs.all (fun kv => isScalar kv.2)) &&
      noHalfMapPairs avail kvs
  | .arr xs  => noHalfMapItems avail xs
  | _        => true

def noHalfMapPairs (avail : List String) : List (String × Json) → Bool
  | []             => true
  | (_, v) :: rest => noHalfMap avail v && noHalfMapPairs avail rest

def noHalfMapItems (avail : List String) : List Json → Bool
  | []        => true
  | x :: rest => noHalfMap avail x && noHalfMapItems avail rest
end

/-- A document whose `"en"` field is itself a translation map: discovery
finds `{"en","fr"}`, the root mapping is not conservative (its `"en"`
value is not scalar), resolution recurses and returns a mapping that — now
holding only scalars under locale-shaped keys — satisfies the conservative
predicate. -/
def counterexampleDoc : Json :=
  Json.obj [("en", Json.obj [("en", Json.num 3), ("fr", Json.num 4)]),
            ("fr", Json.num 5)]

def items11 : List Json :=
  [Json.num 0, Json.num 1, Json.num 2, Json.num 3, Json.num 4, Json.num 5,
   Json.num 6, Json.num 7, Json.num 8, Json.num 9, Json.num 10]

/-! ## Structural tools -/

/-- Induction over the document tree with member-wise hypotheses for
arrays and objects. -/
theorem json_induction {P : Json → Prop}
    (hs : ∀ s, P (Json.str s)) (hn : ∀ n, P (Json.num n))
    (hb : ∀ b, P (Json.jbool b)) (h0 : P Json.null)
    (ha : ∀ xs, (∀ x ∈ xs, P x) → P (Json.arr xs))
    (ho : ∀ kvs : List (String × Json), (∀ kv ∈ kvs, P kv.2) → P (Json.obj kvs)) :
    ∀ d, P d
  | .str s   => hs s
  | .num n   => hn n
  | .jbool b => hb b
  | .null    => h0
  | .arr xs  => ha xs (fun x _ => json_induction hs hn hb h0 ha ho x)
  | .obj kvs => ho kvs (fun kv _ => json_induction hs hn hb h0 ha ho kv.2)
termination_by d => sizeOf d
decreasing_by
  · rename_i hx
    have h1 := List.sizeOf_lt_of_mem hx
    simp only [Json.arr.sizeOf_spec]
    omega
  · rename_i hkv
    have h1 := List.sizeOf_lt_of_mem hkv
    have h2 : sizeOf kv.2 < sizeOf kv := by
      obtain ⟨a, b⟩ := kv
      simp only [Prod.mk.sizeOf_spec]
      omega
    simp only [Json.obj.sizeOf_spec]
    omega

/-- A subnode of a scalar is the scalar itself. -/
theorem subnode_of_scalar {m s : Json} (hs : isScalar s = true)
    (h : Subnode m s) : m = s := by
  cases h with
  | refl => rfl
  | inObj hmem hsub => simp [isScalar] at hs
  | inArr hmem hsub => simp [isScalar] at hs

/-! ## Sorting lemmas -/

theorem insertLt_ne_nil {α : Type} (lt : α → α → Bool) (x : α) (l : List α) :
    insertLt lt x l ≠ [] := by
  cases l with
  | nil => simp [insertLt]
  | cons y ys =>
    simp only [insertLt]
    split <;> simp

theorem sortLt_eq_nil_iff {α : Type} (lt : α → α → Bool) (l : List α) :
    sortLt lt l = [] ↔ l = [] := by
  cases l with
  | nil => simp [sortLt]
  | cons x xs =>
    simp only [sortLt]
    constructor
    · intro h
      exact absurd h (insertLt_ne_nil lt x (sortLt lt xs))
    · intro h
      exact absurd h (by simp)

theorem mem_insertLt {α : Type} (lt : α → α → Bool) (x a : α) (l : List α) :
    a ∈ insertLt lt x l ↔ a = x ∨ a ∈ l := by
  induction l with
  | nil => simp [insertLt]
  | cons y ys ih =>
    simp only [insertLt]
    split
    · simp only [List.mem_cons, ih]
      tauto
    · simp [List.mem_cons]

theorem mem_sortLt {α : Type} (lt : α → α → Bool) (a : α) (l : List α) :
    a ∈ sortLt lt l ↔ a ∈ l := by
  induction l with
  | nil => simp [sortLt]
  | cons x xs ih =>
    simp only [sortLt, mem_insertLt, ih, List.mem_cons]

theorem length_insertLt {α : Type} (lt : α → α → Bool) (x : α) (l : List α) :
    (insertLt lt x l).length = l.length + 1 := by
  induction l with
  | nil => simp [insertLt]
  | cons y ys ih =>
    simp only [insertLt]
    split <;> simp [ih]

theorem length_sortLt {α : Type} (lt : α → α → Bool) (l : List α) :
    (sortLt lt l).length = l.length := by
  induction l with
  | nil => simp [sortLt]
  | cons x xs ih => simp [sortLt, length_insertLt, ih]

/-- Sorting name-value pairs by name tracks sorting the bare names. -/
theorem map_fst_insertLt (p : String × Json) (l : List (String × Json)) :
    (insertLt nameLt p l).map Prod.fst = insertLt strLt p.1 (l.map Prod.fst) := by
  induction l with
  | nil => simp [insertLt]
  | cons q qs ih =>
    simp only [insertLt, List.map_cons, nameLt]
    split <;> simp_all [insertLt]

theorem map_fst_sortLt (l : List (String × Json)) :
    (sortLt nameLt l).map Prod.fst = sortLt strLt (l.map Prod.fst) := by
  induction l with
  | nil => simp [sortLt]
  | cons p ps ih =>
    simp [sortLt, map_fst_insertLt, ih]

/-! ## C5: merge_section absence behaviour -/

/-- C5.  `_merge_section` is absent (`none`) exactly when the fragment
directory does not exist or contains no `*.json` file, and it never
returns an empty list — an existing-but-empty directory behaves like a
missing one. -/
theorem merge_section_absent_iff :
    (∀ dir : Option (List (String × Json)),
      merge_section dir = none ↔
        dir = none ∨
          ∃ files, dir = some files ∧
            files.filter (fun f => globJson f.1) = []) ∧
    (∀ (dir : Option (List (String × Json))) (xs : List Json),
      merge_section dir = some xs → xs ≠ []) := by
  constructor
  · intro dir
    cases dir with
    | none => simp [merge_section]
    | some files =>
      simp only [merge_section, Option.some.injEq]
      constructor
      · intro h
        right
        refine ⟨files, rfl, ?_⟩
        by_cases hemp :
            ((sortLt nameLt (files.filter (fun f => globJson f.1))).map Prod.snd).isEmpty
        · rw [List.isEmpty_iff, List.map_eq_nil_iff, sortLt_eq_nil_iff] at hemp
          exact hemp
        · simp [hemp] at h
      · rintro (h | ⟨files2, hf, hfilter⟩)
        · exact absurd h (by simp)
        · cases hf
          simp [hfilter, sortLt]
  · intro dir xs h
    cases dir with
    | none => simp [merge_section] at h
    | some files =>
      simp only [merge_section] at h
      by_cases hemp :
          ((sortLt nameLt (files.filter (fun f => globJson f.1))).map Prod.snd).isEmpty
      · simp [hemp] at h
      · simp only [hemp, Bool.false_eq_true, if_false] at h
        injection h with h
        rw [← h]
        intro hcon
        rw [hcon] at hemp
        simp at hemp

/-- C5 witness: a directory holding one fragment merges to that fragment,
which is a non-empty list. -/
theorem merge_section_absent_iff_witness :
    ([Json.null] : List Json) ≠ [] :=
  merge_section_absent_iff.2 (some [("0.json", Json.null)]) [Json.null] (by rfl)

/-! ## C8: merge_all_sections on a never-split profile -/

theorem foldl_sections_none (dirs : String → Option (List (String × Json)))
    (l : List String) (r : List (String × Json))
    (h : ∀ sec ∈ l, dirs sec = none) :
    l.foldl
      (fun r sec =>
        match merge_section (dirs sec) with
        | some items => setKey r sec (Json.arr items)
        | none       => r)
      r = r := by
  induction l generalizing r with
  | nil => rfl
  | cons sec rest ih =>
    have hsec : dirs sec = none := h sec (by simp)
    simp only [List.foldl_cons, hsec, merge_section]
    exact ih r (fun s hs => h s (by simp [hs]))

/-- C8.  A profile with a base `resume.json`, no `basics.json` and no
fragment directory for any fragmentable section assembles to exactly the
contents of its base file. -/
theorem merge_all_never_split (p : Profile) (base : List (String × Json))
    (hres : p.resumeJson = some base) (hbas : p.basicsJson = none)
    (hdirs : ∀ sec ∈ FRAGMENTABLE_SECTIONS, p.sectionDirs sec = none) :
    merge_all_sections p = base := by
  unfold merge_all_sections
  rw [hres, hbas]
  exact foldl_sections_none p.sectionDirs FRAGMENTABLE_SECTIONS base hdirs

/-- C8 witness at a concrete one-field profile. -/
theorem merge_all_never_split_witness :
    merge_all_sections
      ⟨some [("basics", Json.obj [("name", Json.str "A")])], none, fun _ => none⟩
      = [("basics", Json.obj [("name", Json.str "A")])] :=
  merge_all_never_split
    ⟨some [("basics", Json.obj [("name", Json.str "A")])], none, fun _ => none⟩
    [("basics", Json.obj [("name", Json.str "A")])]
    rfl rfl (fun _ _ => rfl)

/-! ## C7: user-input errors are non-fatal and modify nothing -/

/-- C7.  Every user-input error path is non-fatal and modifies no state:
`split_section` on a non-fragmentable section, an absent section, or a
non-array section returns `none` (nothing written, base document kept)
together with a printed diagnostic, and `build` on an unknown profile does
the same.  (Totality of the Lean functions models "no exception"; the
`none` payload models "returns without modifying anything".) -/
theorem user_input_errors_nonfatal :
    (∀ (resume : List (String × Json)) (sec : String),
      FRAGMENTABLE_SECTIONS.contains sec = false →
        (split_section resume sec).1 = none ∧ (split_section resume sec).2 ≠ []) ∧
    (∀ (resume : List (String × Json)) (sec : String),
      lookupKey resume sec = none →
        (split_section resume sec).1 = none ∧ (split_section resume sec).2 ≠ []) ∧
    (∀ (resume : List (String × Json)) (sec : String) (v : Json),
      lookupKey resume sec = some v → (∀ xs, v ≠ Json.arr xs) →
        (split_section resume sec).1 = none ∧ (split_section resume sec).2 ≠ []) ∧
    (∀ (profiles : List (String × Profile)) (p : String),
      lookupKey profiles p = none →
        (build profiles p).1 = none ∧ (build profiles p).2 ≠ []) := by
  refine ⟨?_, ?_, ?_, ?_⟩
  · intro resume sec h
    have hmem : sec ∉ FRAGMENTABLE_SECTIONS := by simpa using h
    simp [split_section, hmem]
  · intro resume sec h
    by_cases hmem : sec ∈ FRAGMENTABLE_SECTIONS
    · simp [split_section, hmem, h]
    · simp [split_section, hmem]
  · intro resume sec v hv hnotarr
    by_cases hmem : sec ∈ FRAGMENTABLE_SECTIONS
    · cases v with
      | arr xs => exact absurd rfl (hnotarr xs)
      | str s => simp [split_section, hmem, hv]
      | num n => simp [split_section, hmem, hv]
      | jbool b => simp [split_section, hmem, hv]
      | null => simp [split_section, hmem, hv]
      | obj kvs => simp [split_section, hmem, hv]
    · simp [split_section, hmem]
  · intro profiles p h
    simp [build, h]

/-- C7 witness: `basics` is not fragmentable; splitting it changes nothing
and prints a diagnostic. -/
theorem user_input_errors_nonfatal_witness :
    (split_section [] "basics").1 = none ∧ (split_section [] "basics").2 ≠ [] :=
  user_input_errors_nonfatal.1 [] "basics" (by rfl)

/-! ## C6: output base-name derivation -/

/-- C6.  The output base name is LAST-FIRST upper-cased from the
whitespace-split `basics.name`: first/last token with ≥ 2 tokens, single
token as first name with empty last name, and the placeholder `Resume`
(hence `-RESUME`) when the name is missing or empty. -/
theorem build_single_name_spec :
    (∀ (resume : List (String × Json)) (name : String),
      nameFrom resume = some name →
        build_single_name resume = some (expectedName (pySplit name))) ∧
    (∀ resume : List (String × Json),
      lookupKey resume "basics" = none →
        build_single_name resume = some "-RESUME") ∧
    build_single_name [("basics", Json.obj [("name", Json.str "John Smith")])]
      = some "SMITH-JOHN" ∧
    build_single_name [("basics", Json.obj [("name", Json.str "Madonna")])]
      = some "-MADONNA" ∧
    build_single_name [("basics", Json.obj [("name", Json.str "")])]
      = some "-RESUME" ∧
    build_single_name [] = some "-RESUME" := by
  have main : ∀ (resume : List (String × Json)) (name : String),
      nameFrom resume = some name →
        build_single_name resume = some (expectedName (pySplit name)) := by
    intro resume name h
    simp only [build_single_name, h, Option.map_some']
    congr 1
    generalize pySplit name = parts
    cases parts with
    | nil => rfl
    | cons t rest =>
      cases rest with
      | nil => rfl
      | cons u rest2 =>
        have hlen : (t :: u :: rest2).length ≥ 2 := by
          simp [List.length_cons]
        rw [if_pos hlen]
        show upperStr ((t :: u :: rest2).getLastD "") ++ "-" ++ upperStr t
          = expectedName (t :: u :: rest2)
        simp only [expectedName, List.getLastD_cons]
  refine ⟨main, ?_, ?_, ?_, ?_, ?_⟩
  · intro resume h
    have hn : nameFrom resume = some "Resume" := by simp [nameFrom, h]
    rw [main resume "Resume" hn]
    decide
  · rw [main _ "John Smith" (by rfl)]; decide
  · rw [main _ "Madonna" (by rfl)]; decide
  · rw [main _ "" (by rfl)]; decide
  · rw [main _ "Resume" (by rfl)]; decide

/-- C6 witness at a concrete resolved document. -/
theorem build_single_name_spec_witness :
    build_single_name [("basics", Json.obj [("name", Json.str "Ada King")])]
      = some (expectedName (pySplit "Ada King")) :=
  build_single_name_spec.1 _ "Ada King" (by rfl)

/-! ## C2: resolution at a conservative translation-map node -/

/-- C2.  At a mapping node satisfying the conservative predicate,
`_resolve_translations` returns the target locale's value when its key is
present, else the `"en"` value when present, else the value of the node's
first key in insertion order. -/
theorem resolve_conservative_cases
    (kvs : List (String × Json)) (language : String) (avail : List String)
    (hc : conservative avail kvs = true) :
    (∀ v, lookupKey kvs language = some v →
      resolve_translations (Json.obj kvs) language avail = some v) ∧
    (lookupKey kvs language = none →
      ∀ v, lookupKey kvs "en" = some v →
        resolve_translations (Json.obj kvs) language avail = some v) ∧
    (lookupKey kvs language = none → lookupKey kvs "en" = none →
      ∀ (k : String) (v : Json) (rest : List (String × Json)),
        kvs = (k, v) :: rest →
        resolve_translations (Json.obj kvs) language avail = some v) := by
  refine ⟨?_, ?_, ?_⟩
  · intro v hv
    simp [resolve_translations, hc, hv]
  · intro hl v hv
    simp [resolve_translations, hc, hl, hv]
  · intro hl hen k v rest hkvs
    subst hkvs
    simp [resolve_translations, hc, hl, hen]

/-- C2 witness: the three concrete resolutions from the spec —
`{"en":"Hello","fr":"Bonjour"}` at `"fr"` and at unknown `"de"`, and
`{"es":"Hola"}` at `"de"`. -/
theorem resolve_conservative_cases_witness :
    resolve_translations
        (Json.obj [("en", Json.str "Hello"), ("fr", Json.str "Bonjour")])
        "fr" ["en", "fr"] = some (Json.str "Bonjour") ∧
    resolve_translations
        (Json.obj [("en", Json.str "Hello"), ("fr", Json.str "Bonjour")])
        "de" ["en", "fr"] = some (Json.str "Hello") ∧
    resolve_translations
        (Json.obj [("es", Json.str "Hola")])
        "de" ["es"] = some (Json.str "Hola") :=
  ⟨(resolve_conservative_cases _ "fr" ["en", "fr"] (by rfl)).1
      (Json.str "Bonjour") (by rfl),
   (resolve_conservative_cases _ "de" ["en", "fr"] (by rfl)).2.1
      (by rfl) (Json.str "Hello") (by rfl),
   (resolve_conservative_cases _ "de" ["es"] (by rfl)).2.2
      (by rfl) (by rfl) "es" (Json.str "Hola") [] rfl⟩

/-! ## C9: an empty mapping anywhere makes resolution fail -/

/-- Values of a conservative mapping are scalars. -/
theorem conservative_value_scalar {avail : List String}
    {kvs : List (String × Json)} (hc : conservative avail kvs = true)
    {k : String} {v : Json} (hmem : (k, v) ∈ kvs) : isScalar v = true := by
  unfold conservative at hc
  rw [Bool.and_eq_true] at hc
  have h2 := hc.2
  rw [List.all_eq_true] at h2
  exact h2 (k, v) hmem

/-- Failure of one value's resolution fails the whole mapping walk. -/
theorem resolvePairs_none_of_mem {kvs : List (String × Json)}
    {k : String} {v : Json} (hmem : (k, v) ∈ kvs)
    {language : String} {avail : List String}
    (hv : resolve_translations v language avail = none) :
    resolvePairs kvs language avail = none := by
  induction kvs with
  | nil => cases hmem
  | cons kv rest ih =>
    obtain ⟨k0, v0⟩ := kv
    rcases List.mem_cons.mp hmem with heq | hmem2
    · cases heq
      simp [resolvePairs, hv]
    · rw [resolvePairs]
      rw [ih hmem2]
      cases resolve_translations v0 language avail <;> rfl

/-- Failure of one element's resolution fails the whole array walk. -/
theorem resolveItems_none_of_mem {xs : List Json} {x : Json} (hmem : x ∈ xs)
    {language : String} {avail : List String}
    (hx : resolve_translations x language avail = none) :
    resolveItems xs language avail = none := by
  induction xs with
  | nil => cases hmem
  | cons y rest ih =>
    rcases List.mem_cons.mp hmem with heq | hmem2
    · cases heq
      simp [resolveItems, hx]
    · rw [resolveItems]
      rw [ih hmem2]
      cases resolve_translations y language avail <;> rfl

/-- C9.  Resolution is not total: the empty mapping `{}` vacuously satisfies
the conservative predicate, has no target key, no `"en"` key and no first
key, so `_resolve_translations` raises there (`none`), and the failure
propagates from any position in the document. -/
theorem resolve_fails_on_empty_mapping :
    ∀ (d : Json) (language : String) (avail : List String),
      Subnode (Json.obj []) d → resolve_translations d language avail = none := by
  intro d
  induction d using json_induction with
  | hs s => intro language avail h; cases h
  | hn n => intro language avail h; cases h
  | hb b => intro language avail h; cases h
  | h0 => intro language avail h; cases h
  | ha xs ih =>
    intro language avail h
    cases h with
    | inArr hmem hsub =>
      rename_i x
      have hx := ih x hmem language avail hsub
      rw [resolve_translations, resolveItems_none_of_mem hmem hx]
      rfl
  | ho kvs ih =>
    intro language avail h
    cases h with
    | refl => rfl
    | inObj hmem hsub =>
      rename_i v k
      have hns : isScalar v = false := by
        have := subnode_of_scalar (m := Json.obj []) (s := v)
        cases hsc : isScalar v
        · rfl
        · have heq := subnode_of_scalar hsc hsub
          rw [← heq] at hsc
          simp [isScalar] at hsc
      have hnc : conservative avail kvs = false := by
        cases hcc : conservative avail kvs
        · rfl
        · have := conservative_value_scalar hcc hmem
          rw [hns] at this
          cases this
      have hv := ih (k, v) hmem language avail hsub
      have hrp := resolvePairs_none_of_mem hmem hv
      simp [resolve_translations, hnc, hrp]

/-- C9 witness: a document with an empty mapping nested in a field fails to
resolve. -/
theorem resolve_fails_on_empty_mapping_witness :
    resolve_translations (Json.obj [("basics", Json.obj [])]) "en" ["en"] = none :=
  resolve_fails_on_empty_mapping (Json.obj [("basics", Json.obj [])]) "en" ["en"]
    (Subnode.inObj (List.mem_singleton.mpr rfl) (Subnode.refl (Json.obj [])))

/-! ## C4: language discovery -/

/-- Values of a permissive mapping are scalars. -/
theorem permissive_value_scalar {kvs : List (String × Json)}
    (hp : permissive kvs = true)
    {k : String} {v : Json} (hmem : (k, v) ∈ kvs) : isScalar v = true := by
  unfold permissive at hp
  rw [Bool.and_eq_true] at hp
  have h2 := hp.2
  rw [List.all_eq_true] at h2
  exact h2 (k, v) hmem

theorem mem_extractPairs_iff (kvs : List (String × Json)) (k : String) :
    k ∈ extractPairs kvs ↔ ∃ kv ∈ kvs, k ∈ extract_languages kv.2 := by
  induction kvs with
  | nil => simp [extractPairs]
  | cons kv rest ih =>
    obtain ⟨k0, v0⟩ := kv
    simp only [extractPairs, List.mem_append, ih, List.mem_cons]
    constructor
    · rintro (h | ⟨kv2, hmem, hk⟩)
      · exact ⟨(k0, v0), Or.inl rfl, h⟩
      · exact ⟨kv2, Or.inr hmem, hk⟩
    · rintro ⟨kv2, hmem | hmem, hk⟩
      · subst hmem
        exact Or.inl hk
      · exact Or.inr ⟨kv2, hmem, hk⟩

theorem mem_extractItems_iff (xs : List Json) (k : String) :
    k ∈ extractItems xs ↔ ∃ x ∈ xs, k ∈ extract_languages x := by
  induction xs with
  | nil => simp [extractItems]
  | cons x rest ih =>
    simp only [extractItems, List.mem_append, ih, List.mem_cons]
    constructor
    · rintro (h | ⟨x2, hmem, hk⟩)
      · exact ⟨x, Or.inl rfl, h⟩
      · exact ⟨x2, Or.inr hmem, hk⟩
    · rintro ⟨x2, hmem | hmem, hk⟩
      · subst hmem
        exact Or.inl hk
      · exact Or.inr ⟨x2, hmem, hk⟩

/-- The collected codes are exactly the keys of the permissive mapping
nodes of the document. -/
theorem mem_extract_languages_iff (d : Json) (k : String) :
    k ∈ extract_languages d ↔
      ∃ kvs2, Subnode (Json.obj kvs2) d ∧ permissive kvs2 = true ∧
        k ∈ kvs2.map Prod.fst := by
  induction d using json_induction with
  | hs s =>
    simp only [extract_languages, List.not_mem_nil, false_iff]
    rintro ⟨kvs2, hsub, _, _⟩
    cases hsub
  | hn n =>
    simp only [extract_languages, List.not_mem_nil, false_iff]
    rintro ⟨kvs2, hsub, _, _⟩
    cases hsub
  | hb b =>
    simp only [extract_languages, List.not_mem_nil, false_iff]
    rintro ⟨kvs2, hsub, _, _⟩
    cases hsub
  | h0 =>
    simp only [extract_languages, List.not_mem_nil, false_iff]
    rintro ⟨kvs2, hsub, _, _⟩
    cases hsub
  | ha xs ih =>
    rw [extract_languages, mem_extractItems_iff]
    constructor
    · rintro ⟨x, hmem, hk⟩
      obtain ⟨kvs2, hsub, hperm, hkk⟩ := (ih x hmem).mp hk
      exact ⟨kvs2, Subnode.inArr hmem hsub, hperm, hkk⟩
    · rintro ⟨kvs2, hsub, hperm, hkk⟩
      cases hsub with
      | inArr hmem hsub2 =>
        rename_i x
        exact ⟨x, hmem, (ih x hmem).mpr ⟨kvs2, hsub2, hperm, hkk⟩⟩
  | ho kvs ih =>
    by_cases hp : permissive kvs
    · rw [extract_languages, if_pos hp]
      constructor
      · intro hk
        exact ⟨kvs, Subnode.refl _, hp, hk⟩
      · rintro ⟨kvs2, hsub, hperm, hkk⟩
        cases hsub with
        | refl => exact hkk
        | inObj hmem hsub2 =>
          rename_i v k0
          have hsc := permissive_value_scalar hp hmem
          have heq := subnode_of_scalar hsc hsub2
          rw [← heq] at hsc
          simp [isScalar] at hsc
    · rw [extract_languages, if_neg hp, mem_extractPairs_iff]
      constructor
      · rintro ⟨kv, hmem, hk⟩
        obtain ⟨kvs2, hsub, hperm, hkk⟩ := (ih kv hmem).mp hk
        exact ⟨kvs2, Subnode.inObj (k := kv.1) (by simpa using hmem) hsub, hperm, hkk⟩
      · rintro ⟨kvs2, hsub, hperm, hkk⟩
        cases hsub with
        | refl => exact absurd hperm hp
        | inObj hmem hsub2 =>
          rename_i v k0
          exact ⟨(k0, v), hmem, (ih (k0, v) hmem).mpr ⟨kvs2, hsub2, hperm, hkk⟩⟩

/-- C4.  `_get_available_languages` returns exactly the union of the key
sets of the document's permissive translation-map nodes, defaulting to the
single code `"en"` when that union is empty. -/
theorem get_available_languages_spec (d : Json) (k : String) :
    k ∈ get_available_languages d ↔
      ((∃ kvs2, Subnode (Json.obj kvs2) d ∧ permissive kvs2 = true ∧
          k ∈ kvs2.map Prod.fst) ∨
       ((¬ ∃ (kvs2 : List (String × Json)) (k0 : String),
            Subnode (Json.obj kvs2) d ∧ permissive kvs2 = true ∧
              k0 ∈ kvs2.map Prod.fst) ∧
        k = "en")) := by
  unfold get_available_languages
  by_cases hemp : (extract_languages d).isEmpty
  · rw [if_pos hemp]
    rw [List.isEmpty_iff] at hemp
    constructor
    · intro hk
      right
      constructor
      · rintro ⟨kvs2, k0, hsub, hperm, hkk⟩
        have : k0 ∈ extract_languages d :=
          (mem_extract_languages_iff d k0).mpr ⟨kvs2, hsub, hperm, hkk⟩
        rw [hemp] at this
        cases this
      · simpa using hk
    · rintro (⟨kvs2, hsub, hperm, hkk⟩ | ⟨_, hk⟩)
      · have : k ∈ extract_languages d :=
          (mem_extract_languages_iff d k).mpr ⟨kvs2, hsub, hperm, hkk⟩
        rw [hemp] at this
        cases this
      · simp [hk]
  · rw [if_neg hemp]
    rw [mem_extract_languages_iff]
    constructor
    · intro h
      exact Or.inl h
    · rintro (h | ⟨hnone, hk⟩)
      · exact h
      · exfalso
        rw [List.isEmpty_iff] at hemp
        rcases hne : extract_languages d with _ | ⟨k1, rest⟩
        · exact hemp hne
        · have hk1 : k1 ∈ extract_languages d := by rw [hne]; simp
          obtain ⟨kvs2, hsub, hperm, hkk⟩ := (mem_extract_languages_iff d k1).mp hk1
          exact hnone ⟨kvs2, k1, hsub, hperm, hkk⟩

/-! ## C10: the two classifiers agree on nodes of the same document -/

/-- C10.  On every mapping node of a document `d`, the permissive
classifier and the conservative classifier taken with `d`'s own discovered
locale set make the same decision: discovery reaches every permissive node
(permissive nodes hold only scalars, so none hides inside another) and
records its keys, so the extra key-membership condition is automatically
satisfied. -/
theorem classifier_agreement (d : Json) (kvs : List (String × Json))
    (hsub : Subnode (Json.obj kvs) d) :
    permissive kvs = true ↔
      conservative (get_available_languages d) kvs = true := by
  constructor
  · intro hp
    have hp2 := hp
    unfold permissive at hp2
    rw [Bool.and_eq_true] at hp2
    obtain ⟨hkeys, hvals⟩ := hp2
    unfold conservative
    rw [Bool.and_eq_true]
    refine ⟨?_, hvals⟩
    rw [List.all_eq_true] at hkeys ⊢
    intro kv hmem
    rw [Bool.and_eq_true]
    refine ⟨hkeys kv hmem, ?_⟩
    have hkmem : kv.1 ∈ kvs.map Prod.fst := List.mem_map.mpr ⟨kv, hmem, rfl⟩
    have hin : kv.1 ∈ get_available_languages d :=
      (get_available_languages_spec d kv.1).mpr (Or.inl ⟨kvs, hsub, hp, hkmem⟩)
    exact List.elem_iff.mpr hin
  · intro hc
    unfold conservative at hc
    rw [Bool.and_eq_true] at hc
    obtain ⟨hkeys, hvals⟩ := hc
    unfold permissive
    rw [Bool.and_eq_true]
    refine ⟨?_, hvals⟩
    rw [List.all_eq_true] at hkeys ⊢
    intro kv hmem
    have hkv := hkeys kv hmem
    rw [Bool.and_eq_true] at hkv
    exact hkv.1

/-- C10 witness: the root translation map of a one-field document. -/
theorem classifier_agreement_witness :
    permissive [("en", Json.str "x")] = true ↔
      conservative (get_available_languages (Json.obj [("en", Json.str "x")]))
        [("en", Json.str "x")] = true :=
  classifier_agreement (Json.obj [("en", Json.str "x")]) [("en", Json.str "x")]
    (Subnode.refl _)

/-! ## C3: remaining translation maps after resolution -/

theorem conservative_eq (avail : List String) (kvs : List (String × Json)) :
    conservative avail kvs =
      (keysShaped avail kvs && kvs.all (fun kv => isScalar kv.2)) := rfl

theorem hasTransMap_scalar {v : Json} (h : isScalar v = true)
    {avail : List String} : hasTransMap avail v = false := by
  cases v <;> first | rfl | simp [isScalar] at h

theorem hasTransMapPairs_eq_false {avail : List String}
    {kvs : List (String × Json)}
    (h : ∀ kv ∈ kvs, hasTransMap avail kv.2 = false) :
    hasTransMapPairs avail kvs = false := by
  induction kvs with
  | nil => rfl
  | cons kv rest ih =>
    obtain ⟨k0, v0⟩ := kv
    rw [hasTransMapPairs]
    rw [h (k0, v0) (by simp), ih (fun kv hm => h kv (by simp [hm]))]
    rfl

theorem hasTransMapItems_eq_false {avail : List String} {xs : List Json}
    (h : ∀ x ∈ xs, hasTransMap avail x = false) :
    hasTransMapItems avail xs = false := by
  induction xs with
  | nil => rfl
  | cons x rest ih =>
    rw [hasTransMapItems]
    rw [h x (by simp), ih (fun x2 hm => h x2 (by simp [hm]))]
    rfl

theorem noHalfMapPairs_mem {avail : List String} {kvs : List (String × Json)}
    (h : noHalfMapPairs avail kvs = true) {kv : String × Json} (hm : kv ∈ kvs) :
    noHalfMap avail kv.2 = true := by
  induction kvs with
  | nil => cases hm
  | cons kv0 rest ih =>
    obtain ⟨k0, v0⟩ := kv0
    rw [noHalfMapPairs, Bool.and_eq_true] at h
    rcases List.mem_cons.mp hm with heq | hm2
    · rw [heq]
      exact h.1
    · exact ih h.2 hm2

theorem noHalfMapItems_mem {avail : List String} {xs : List Json}
    (h : noHalfMapItems avail xs = true) {x : Json} (hm : x ∈ xs) :
    noHalfMap avail x = true := by
  induction xs with
  | nil => cases hm
  | cons x0 rest ih =>
    rw [noHalfMapItems, Bool.and_eq_true] at h
    rcases List.mem_cons.mp hm with heq | hm2
    · rw [heq]
      exact h.1
    · exact ih h.2 hm2

theorem lookupKey_val_mem {α : Type} {kvs : List (String × α)} {k : String}
    {v : α} (h : lookupKey kvs k = some v) : ∃ k0, (k0, v) ∈ kvs := by
  induction kvs with
  | nil => cases h
  | cons kv rest ih =>
    obtain ⟨k0, v0⟩ := kv
    rw [lookupKey] at h
    by_cases heq : k0 = k
    · rw [if_pos heq] at h
      injection h with h
      exact ⟨k0, by simp [h]⟩
    · rw [if_neg heq] at h
      obtain ⟨k1, hk1⟩ := ih h
      exact ⟨k1, by simp [hk1]⟩

theorem resolvePairs_map_fst {kvs kvs2 : List (String × Json)}
    {language : String} {avail : List String}
    (h : resolvePairs kvs language avail = some kvs2) :
    kvs2.map Prod.fst = kvs.map Prod.fst := by
  induction kvs generalizing kvs2 with
  | nil =>
    rw [resolvePairs] at h
    injection h with h
    rw [← h]
  | cons kv rest ih =>
    obtain ⟨k0, v0⟩ := kv
    rw [resolvePairs] at h
    cases hv : resolve_translations v0 language avail with
    | none => rw [hv] at h; cases h
    | some v2 =>
      cases hr : resolvePairs rest language avail with
      | none => rw [hv, hr] at h; cases h
      | some rest2 =>
        rw [hv, hr] at h
        injection h with h
        rw [← h]
        simp [ih hr]

theorem resolvePairs_mem {kvs kvs2 : List (String × Json)}
    {language : String} {avail : List String}
    (h : resolvePairs kvs language avail = some kvs2)
    {kv2 : String × Json} (hm : kv2 ∈ kvs2) :
    ∃ kv ∈ kvs, resolve_translations kv.2 language avail = some kv2.2 := by
  induction kvs generalizing kvs2 with
  | nil =>
    rw [resolvePairs] at h
    injection h with h
    rw [← h] at hm
    cases hm
  | cons kv rest ih =>
    obtain ⟨k0, v0⟩ := kv
    rw [resolvePairs] at h
    cases hv : resolve_translations v0 language avail with
    | none => rw [hv] at h; cases h
    | some v2 =>
      cases hr : resolvePairs rest language avail with
      | none => rw [hv, hr] at h; cases h
      | some rest2 =>
        rw [hv, hr] at h
        injection h with h
        rw [← h] at hm
        rcases List.mem_cons.mp hm with heq | hm2
        · refine ⟨(k0, v0), by simp, ?_⟩
          rw [heq]
          exact hv
        · obtain ⟨kv3, hkv3, hres⟩ := ih hr hm2
          exact ⟨kv3, by simp [hkv3], hres⟩

theorem resolveItems_mem {xs xs2 : List Json}
    {language : String} {avail : List String}
    (h : resolveItems xs language avail = some xs2)
    {x2 : Json} (hm : x2 ∈ xs2) :
    ∃ x ∈ xs, resolve_translations x language avail = some x2 := by
  induction xs generalizing xs2 with
  | nil =>
    rw [resolveItems] at h
    injection h with h
    rw [← h] at hm
    cases hm
  | cons x rest ih =>
    rw [resolveItems] at h
    cases hv : resolve_translations x language avail with
    | none => rw [hv] at h; cases h
    | some v2 =>
      cases hr : resolveItems rest language avail with
      | none => rw [hv, hr] at h; cases h
      | some rest2 =>
        rw [hv, hr] at h
        injection h with h
        rw [← h] at hm
        rcases List.mem_cons.mp hm with heq | hm2
        · refine ⟨x, by simp, ?_⟩
          rw [heq]
          exact hv
        · obtain ⟨x3, hx3, hres⟩ := ih hr hm2
          exact ⟨x3, by simp [hx3], hres⟩

/-- Predicate `keysShaped` depends only on the key list. -/
theorem keysShaped_eq_of_map_fst {avail : List String}
    {kvs kvs2 : List (String × Json)}
    (h : kvs2.map Prod.fst = kvs.map Prod.fst) :
    keysShaped avail kvs2 = keysShaped avail kvs := by
  have e : ∀ l : List (String × Json),
      keysShaped avail l
        = (l.map Prod.fst).all (fun k => k.length == 2 && avail.contains k) := by
    intro l
    rw [keysShaped]
    induction l with
    | nil => rfl
    | cons a l2 ih =>
      rw [List.map_cons, List.all_cons, List.all_cons, ih]
  rw [e kvs2, e kvs, h]

/-- Resolution never leaves (or creates) a conservative translation-map
node, provided no mapping of the input has locale-shaped keys with a
non-scalar value. -/
theorem resolve_preserves_no_transmap :
    ∀ (d : Json) (language : String) (avail : List String) (r : Json),
      noHalfMap avail d = true →
      resolve_translations d language avail = some r →
      hasTransMap avail r = false := by
  intro d
  induction d using json_induction with
  | hs s =>
    intro language avail r _ hr
    simp only [resolve_translations] at hr
    injection hr with hr
    subst hr
    rfl
  | hn n =>
    intro language avail r _ hr
    simp only [resolve_translations] at hr
    injection hr with hr
    subst hr
    rfl
  | hb b =>
    intro language avail r _ hr
    simp only [resolve_translations] at hr
    injection hr with hr
    subst hr
    rfl
  | h0 =>
    intro language avail r _ hr
    simp only [resolve_translations] at hr
    injection hr with hr
    subst hr
    rfl
  | ha xs ih =>
    intro language avail r hg hr
    simp only [resolve_translations] at hr
    cases hri : resolveItems xs language avail with
    | none => rw [hri] at hr; cases hr
    | some xs2 =>
      rw [hri] at hr
      injection hr with hr
      subst hr
      show hasTransMapItems avail xs2 = false
      apply hasTransMapItems_eq_false
      intro x2 hm
      obtain ⟨x, hx, hres⟩ := resolveItems_mem hri hm
      exact ih x hx language avail x2 (noHalfMapItems_mem hg hx) hres
  | ho kvs ih =>
    intro language avail r hg hr
    have hg2 : ((!keysShaped avail kvs || kvs.all (fun kv => isScalar kv.2)) &&
        noHalfMapPairs avail kvs) = true := hg
    rw [Bool.and_eq_true] at hg2
    obtain ⟨hshape, hpairs⟩ := hg2
    by_cases hc : conservative avail kvs = true
    · simp only [resolve_translations] at hr
      rw [if_pos hc] at hr
      cases hl : lookupKey kvs language with
      | some v =>
        rw [hl] at hr
        injection hr with hr
        subst hr
        obtain ⟨k0, hk0⟩ := lookupKey_val_mem hl
        exact hasTransMap_scalar (conservative_value_scalar hc hk0)
      | none =>
        rw [hl] at hr
        cases hen : lookupKey kvs "en" with
        | some v =>
          rw [hen] at hr
          injection hr with hr
          subst hr
          obtain ⟨k0, hk0⟩ := lookupKey_val_mem hen
          exact hasTransMap_scalar (conservative_value_scalar hc hk0)
        | none =>
          rw [hen] at hr
          cases kvs with
          | nil => cases hr
          | cons kv rest =>
            obtain ⟨k0, v0⟩ := kv
            injection hr with hr
            subst hr
            exact hasTransMap_scalar
              (conservative_value_scalar hc (List.mem_cons_self (k0, v0) rest))
    · simp only [resolve_translations] at hr
      rw [if_neg hc] at hr
      cases hrp : resolvePairs kvs language avail with
      | none => rw [hrp] at hr; cases hr
      | some kvs2 =>
        rw [hrp] at hr
        injection hr with hr
        subst hr
        show (conservative avail kvs2 || hasTransMapPairs avail kvs2) = false
        have hks : keysShaped avail kvs = false := by
          cases hk : keysShaped avail kvs
          · rfl
          · exfalso
            apply hc
            rw [conservative_eq, hk, Bool.true_and]
            rw [hk] at hshape
            simpa using hshape
        have hc2 : conservative avail kvs2 = false := by
          rw [conservative_eq, keysShaped_eq_of_map_fst (resolvePairs_map_fst hrp),
            hks]
          rfl
        have hp2 : hasTransMapPairs avail kvs2 = false := by
          apply hasTransMapPairs_eq_false
          intro kv2 hm
          obtain ⟨kv, hkv, hres⟩ := resolvePairs_mem hrp hm
          exact ih kv hkv language avail kv2.2 (noHalfMapPairs_mem hpairs hkv) hres
        rw [hc2, hp2]
        rfl

/-- C3 (amended).  When every mapping of `d` whose keys are all
2-character members of the discovered locale set holds only scalar values,
the tree returned by resolution for any target locale contains no
remaining translation-map node.  (Unrestricted, the claim is false: see
the counterexample, where resolving inside a locale-keyed mapping of
non-scalar values leaves a conservative mapping in the output.) -/
theorem resolved_document_no_transmap (d : Json) (language : String) (r : Json)
    (hgood : noHalfMap (get_available_languages d) d = true)
    (hres : resolve_translations d language (get_available_languages d) = some r) :
    hasTransMap (get_available_languages d) r = false :=
  resolve_preserves_no_transmap d language (get_available_languages d) r hgood hres

/-- C3 witness: a document whose only locale-keyed mapping is a genuine
translation map resolves to a tree with no translation map left. -/
theorem resolved_document_no_transmap_witness :
    hasTransMap
      (get_available_languages
        (Json.obj [("name", Json.obj [("en", Json.str "A"), ("fr", Json.str "B")])]))
      (Json.obj [("name", Json.str "B")]) = false :=
  resolved_document_no_transmap
    (Json.obj [("name", Json.obj [("en", Json.str "A"), ("fr", Json.str "B")])])
    "fr" (Json.obj [("name", Json.str "B")]) (by rfl) (by rfl)

/-- C3 counterexample: the tree returned by `_resolve_translations` for
`counterexampleDoc` at target `"en"` with the document's own discovered
locale set still contains a translation-map node (the root itself),
refuting the claim as stated. -/
theorem resolved_document_transmap_counterexample :
    resolve_translations counterexampleDoc "en"
        (get_available_languages counterexampleDoc)
      = some (Json.obj [("en", Json.num 3), ("fr", Json.num 5)]) ∧
    conservative (get_available_languages counterexampleDoc)
        [("en", Json.num 3), ("fr", Json.num 5)] = true ∧
    hasTransMap (get_available_languages counterexampleDoc)
        (Json.obj [("en", Json.num 3), ("fr", Json.num 5)]) = true :=
  ⟨rfl, rfl, rfl⟩

/-! ## C1: split followed by merge, fragment-name ordering -/

theorem globJson_fragName (i : Nat) : globJson (fragName i) = true := by
  unfold globJson fragName
  rw [String.data_append, List.reverse_append]
  have h5 : (String.data ".json").reverse.length = 5 := rfl
  rw [← h5, List.take_left]
  rfl

theorem split_section_files_length (items : List Json) :
    (split_section_files items).length = items.length := by
  simp [split_section_files]

theorem split_section_files_get (items : List Json) (j : Nat)
    (hj : j < (split_section_files items).length) :
    ∃ hj2 : j < items.length,
      (split_section_files items).get ⟨j, hj⟩
        = (fragName j, items.get ⟨j, hj2⟩) := by
  have hj2 : j < items.length := by
    rw [split_section_files_length] at hj
    exact hj
  refine ⟨hj2, ?_⟩
  unfold split_section_files
  simp [List.get_eq_getElem, List.getElem_zip]

theorem mem_split_section_files {items : List Json} {p : String × Json} :
    p ∈ split_section_files items ↔
      ∃ i, ∃ hi : i < items.length, p = (fragName i, items.get ⟨i, hi⟩) := by
  constructor
  · intro hp
    obtain ⟨⟨j, hj⟩, hg⟩ := List.mem_iff_get.mp hp
    obtain ⟨hj2, hval⟩ := split_section_files_get items j hj
    exact ⟨j, hj2, by rw [← hg, hval]⟩
  · rintro ⟨i, hi, rfl⟩
    have hi2 : i < (split_section_files items).length := by
      rw [split_section_files_length]
      exact hi
    obtain ⟨hi3, hval⟩ := split_section_files_get items i hi2
    rw [← hval]
    exact List.get_mem _ _ _

theorem split_section_files_map_fst (items : List Json) :
    (split_section_files items).map Prod.fst
      = (List.range items.length).map fragName := by
  unfold split_section_files
  rw [List.map_map]
  have e : (Prod.fst ∘ fun p : Nat × Json => (fragName p.1, p.2))
      = (fragName ∘ Prod.fst) := rfl
  rw [e, ← List.map_map, List.map_fst_zip]
  simp

/-- C1 (amended: a non-empty section).  Splitting an array section and
merging it back yields exactly `N` elements: the merged list is the written
fragments sorted by file-name lexicographic byte order, its name sequence
is the lex-sorted `0.json … {N-1}.json`, and the element at each merged
position is the original element written under that position's file
name. -/
theorem split_then_merge_lex (items : List Json) (hne : items ≠ []) :
    merge_section (some (split_section_files items))
        = some ((sortLt nameLt (split_section_files items)).map Prod.snd) ∧
    ((sortLt nameLt (split_section_files items)).map Prod.snd).length
        = items.length ∧
    (sortLt nameLt (split_section_files items)).map Prod.fst
        = sortLt strLt ((List.range items.length).map fragName) ∧
    (∀ j, ∀ hj : j < (sortLt nameLt (split_section_files items)).length,
      ∃ i, ∃ hi : i < items.length,
        (sortLt nameLt (split_section_files items)).get ⟨j, hj⟩
          = (fragName i, items.get ⟨i, hi⟩)) := by
  have hfilter : (split_section_files items).filter (fun f => globJson f.1)
      = split_section_files items := by
    apply List.filter_eq_self.mpr
    intro p hp
    obtain ⟨i, hi, rfl⟩ := mem_split_section_files.mp hp
    exact globJson_fragName i
  refine ⟨?_, ?_, ?_, ?_⟩
  · rw [merge_section, hfilter]
    have hlen : ((sortLt nameLt (split_section_files items)).map Prod.snd).length
        = items.length := by
      rw [List.length_map, length_sortLt, split_section_files_length]
    have : ¬ ((sortLt nameLt (split_section_files items)).map Prod.snd).isEmpty := by
      rw [List.isEmpty_iff]
      intro hcon
      apply hne
      rw [hcon] at hlen
      exact List.length_eq_zero.mp hlen.symm
    simp only [this, Bool.false_eq_true, if_false]
  · rw [List.length_map, length_sortLt, split_section_files_length]
  · rw [map_fst_sortLt, split_section_files_map_fst]
  · intro j hj
    have hmem : (sortLt nameLt (split_section_files items)).get ⟨j, hj⟩
        ∈ split_section_files items := by
      rw [← mem_sortLt nameLt]
      exact List.get_mem _ _ _
    obtain ⟨i, hi, heq⟩ := mem_split_section_files.mp hmem
    exact ⟨i, hi, heq⟩

/-- C1 counterexample: the claim fails at `N = 0` — splitting an empty
array section writes no fragment, and merging then yields absence
(`None`), not a sequence of zero elements. -/
theorem split_then_merge_empty_counterexample :
    merge_section (some (split_section_files ([] : List Json))) = none := rfl

/-- C1 witness at `N = 11`: the merged order is the literal file-name
lexicographic order, with the element written to `10.json` before the one
written to `2.json`. -/
theorem split_then_merge_lex_witness :
    (merge_section (some (split_section_files items11))
        = some ((sortLt nameLt (split_section_files items11)).map Prod.snd) ∧
      ((sortLt nameLt (split_section_files items11)).map Prod.snd).length
        = items11.length ∧
      (sortLt nameLt (split_section_files items11)).map Prod.fst
        = sortLt strLt ((List.range items11.length).map fragName) ∧
      (∀ j, ∀ hj : j < (sortLt nameLt (split_section_files items11)).length,
        ∃ i, ∃ hi : i < items11.length,
          (sortLt nameLt (split_section_files items11)).get ⟨j, hj⟩
            = (fragName i, items11.get ⟨i, hi⟩))) ∧
    merge_section (some (split_section_files items11))
      = some [Json.num 0, Json.num 1, Json.num 10, Json.num 2, Json.num 3,
              Json.num 4, Json.num 5, Json.num 6, Json.num 7, Json.num 8,
              Json.num 9] :=
  ⟨split_then_merge_lex items11 (by simp [items11]), rfl⟩
